import Mathlib

set_option maxRecDepth 200000

namespace SslTracker

/-! ### Hostname validation — `server/internal/ssl/cert_check.go`, `ValidateHostname` -/

/-- The character class `[a-zA-Z0-9]` of the Go regex (ASCII letters and digits,
matching Lean's ASCII `Char.isAlpha`/`Char.isDigit`). -/
def isAlnum (c : Char) : Bool := c.isAlpha || c.isDigit

/-- The character class `[a-zA-Z0-9\-]` of the Go regex. -/
def isLabelChar (c : Char) : Bool := isAlnum c || c == '-'

/-- Whitespace as reported by Go's `unicode.IsSpace` — the Unicode
White_Space property, the set `strings.TrimSpace` trims: tab, newline,
vertical tab, form feed, carriage return, space, NEL (U+0085), NBSP (U+00A0),
Ogham space mark (U+1680), the quad/em/thin/hair space range U+2000–U+200A,
line separator (U+2028), paragraph separator (U+2029), narrow no-break space
(U+202F), medium mathematical space (U+205F), and ideographic space
(U+3000). -/
def goIsSpace (c : Char) : Bool :=
  c == ' ' || c == '\t' || c == '\n' || c == Char.ofNat 11 || c == Char.ofNat 12 ||
    c == '\r' || c == Char.ofNat 133 || c == Char.ofNat 160 || c == Char.ofNat 5760 ||
    (decide (8192 ≤ c.toNat) && decide (c.toNat ≤ 8202)) || c == Char.ofNat 8232 ||
    c == Char.ofNat 8233 || c == Char.ofNat 8239 || c == Char.ofNat 8287 ||
    c == Char.ofNat 12288

/-- Test for `strings.TrimSpace(hostname) == ""`: every character is whitespace. -/
def trimmedEmpty (cs : List Char) : Bool := cs.all goIsSpace

/-- Go's `len(hostname)`: the UTF-8 byte length of the string. -/
def goLen (cs : List Char) : Nat := (cs.map Char.utf8Size).sum

/-- One label of the Go regex: `[a-zA-Z0-9]([a-zA-Z0-9\-]{0,61}[a-zA-Z0-9])?` —
either a single alphanumeric character, or an alphanumeric character followed
by at most 62 characters whose last is alphanumeric and whose others are in
`[a-zA-Z0-9\-]`. -/
def matchLabel : List Char → Bool
  | [] => false
  | [c] => isAlnum c
  | c :: rest =>
      isAlnum c && decide (rest.length ≤ 62) && rest.dropLast.all isLabelChar &&
        (match rest.getLast? with
         | some d => isAlnum d
         | none => false)

/-- Go's `strings.Split(s, ".")` specialised to the one-character separator:
splits a character list at every `'.'`; `Split("", ".") = [""]`. -/
def splitOnDot : List Char → List (List Char)
  | [] => [[]]
  | c :: rest =>
      if c = '.' then [] :: splitOnDot rest
      else
        match splitOnDot rest with
        | [] => [[c]]
        | p :: ps => (c :: p) :: ps

/-- Embedding of `validHostnameRegex.MatchString s` for the anchored pattern
`^L(\.L)*$` where `L` is `matchLabel`'s pattern.  Since `L`'s character
classes exclude `'.'`, a string matches exactly when every `'.'`-separated
part matches `L` (the decomposition at the dots is forced and unique). -/
def matchesHostnameRegex (cs : List Char) : Bool := (splitOnDot cs).all matchLabel

/-- Go's `strings.Contains(s, "..")`: two consecutive dots occur. -/
def containsDotDot : List Char → Bool
  | c1 :: c2 :: rest => (c1 == '.' && c2 == '.') || containsDotDot (c2 :: rest)
  | _ => false

/-- The four sentinel errors of `cert_check.go`. -/
inductive HostnameError where
  | emptyHostname
  | tooLong
  | invalidCharacters
  | invalidHostname
deriving DecidableEq, Repr

/-- The per-label rejection test of `ValidateHostname`'s final loop:
`len(label) == 0 || len(label) > 63` or a leading/trailing `'-'`. -/
def badLabel (l : List Char) : Bool :=
  l.length == 0 || decide (63 < l.length) || l.head? == some '-' || l.getLast? == some '-'

/-- Embedding of `ValidateHostname` from `cert_check.go`, check for check in source order:
trimmed-empty, byte length > 253, regex match, `".."` infix, leading/trailing
`'.'` or `'-'`, and the per-label loop.  Returns `none` on acceptance. -/
def validateHostname (cs : List Char) : Option HostnameError :=
  if trimmedEmpty cs then some .emptyHostname
  else if 253 < goLen cs then some .tooLong
  else if ¬ matchesHostnameRegex cs then some .invalidCharacters
  else if containsDotDot cs then some .invalidHostname
  else if cs.head? == some '.' || cs.getLast? == some '.' ||
          cs.head? == some '-' || cs.getLast? == some '-' then some .invalidHostname
  else if (splitOnDot cs).any badLabel then some .invalidHostname
  else none

/-! ### Joining the split parts back together -/

/-- Inverse of `splitOnDot`: re-joins parts with a single `'.'` between them. -/
def joinDots : List (List Char) → List Char
  | [] => []
  | [p] => p
  | p :: ps => p ++ '.' :: joinDots ps

/-! ### The spec's acceptance condition and the two claim theorems -/

/-- Modelled from the spec's wording (claim C7): every dot-separated label is
1–63 characters of `[A-Za-z0-9-]` not starting or ending with `'-'`, the whole
string does not start or end with `'.'` or `'-'`, and `".."` never occurs. -/
def claimLabelGrammar (cs : List Char) : Bool :=
  ((splitOnDot cs).all fun l =>
      decide (1 ≤ l.length) && decide (l.length ≤ 63) && l.all isLabelChar &&
        !(l.head? == some '-') && !(l.getLast? == some '-')) &&
    !(cs.head? == some '.') && !(cs.getLast? == some '.') &&
    !(cs.head? == some '-') && !(cs.getLast? == some '-') && !(containsDotDot cs)

/-- Modelled from the claim (C9): `ValidateHostname` reduced to only the
empty/whitespace check, the length check, and the regex match. -/
def validateHostnameSimple (cs : List Char) : Option HostnameError :=
  if trimmedEmpty cs then some .emptyHostname
  else if 253 < goLen cs then some .tooLong
  else if ¬ matchesHostnameRegex cs then some .invalidCharacters
  else none

/-! ### Certificate probe — `cert_check.go`, `CheckSSLCertificate` -/

/-- A Go `context.Context` as far as the probe could observe it: whether its
Done channel has fired (deadline expired or cancellation requested). -/
structure GoContext where
  cancelled : Bool
deriving DecidableEq

/-- The leaf certificate presented by the peer (`NotAfter` in nanoseconds). -/
structure PeerCert where
  notAfterNanos : Int
deriving DecidableEq

/-- Outcome of `net.DialTimeout("tcp", hostname:443, 10*time.Second)`. -/
inductive DialOutcome where
  | dialFail
  | dialOk
deriving DecidableEq

/-- Outcome of `tls.Client(conn, ...).Handshake()` together with the peer
chain exposed by `ConnectionState().PeerCertificates`. -/
inductive HandshakeOutcome where
  | handshakeFail
  | handshakeOk (peerCerts : List PeerCert)
deriving DecidableEq

/-- The network oracle for one probe: what the remote host would do, plus the
current wall-clock time in nanoseconds used by `time.Until`. -/
structure NetEnv where
  dial : DialOutcome
  handshake : HandshakeOutcome
  nowNanos : Int
deriving DecidableEq

/-- Externally visible network actions of the probe, in program order. -/
inductive NetEvent where
  | dialAttempt
  | handshakeAttempt
deriving DecidableEq

/-- The probe's error outcomes (`InvalidHostnameErr`, the wrapped dial error,
the wrapped handshake error, the no-certificates error). -/
inductive SslError where
  | invalidHostname
  | connectionFailed
  | handshakeFailed
  | noCertificatesFound
deriving DecidableEq

def nsPerDay : Int := 86400000000000

/-- Embedding of `TimeLeft(time.Until(cert.NotAfter).Hours() / 24)`: with exact (rather
than `float64`) arithmetic the pipeline computes `untilNanos / nsPerDay`
rounded **toward zero** — Go's float-to-int conversion truncates. -/
def timeLeftDays (untilNanos : Int) : Int := untilNanos.tdiv nsPerDay

/-- The `SLLCertificate` struct of `cert_check.go` (name kept from source). -/
structure SLLCertificate where
  hostname : List Char
  expiryDateNanos : Int
  timeLeft : Int
deriving DecidableEq

/-- Embedding of `CheckSSLCertificate(ctx, hostname)` from `cert_check.go`: hostname
re-validation, dial, handshake, chain inspection, expiry extraction.  Returns
the network actions performed in order together with the Go result pair
`(*SLLCertificate, error)`.  The Go function receives `ctx` but never reads
it — the dial uses a fixed 10-second `net.DialTimeout` and the handshake has
no deadline — so the embedding takes `ctx` and ignores it, exactly as the
source does. -/
def checkSSLCertificate (ctx : GoContext) (hostname : List Char) (env : NetEnv) :
    List NetEvent × Option SLLCertificate × Option SslError :=
  if validateHostname hostname ≠ none then ([], none, some .invalidHostname)
  else
    match env.dial with
    | .dialFail => ([.dialAttempt], none, some .connectionFailed)
    | .dialOk =>
      match env.handshake with
      | .handshakeFail => ([.dialAttempt, .handshakeAttempt], none, some .handshakeFailed)
      | .handshakeOk [] => ([.dialAttempt, .handshakeAttempt], none, some .noCertificatesFound)
      | .handshakeOk (c :: _) =>
        ([.dialAttempt, .handshakeAttempt],
          some ⟨hostname, c.notAfterNanos, timeLeftDays (c.notAfterNanos - env.nowNanos)⟩,
          none)

/-! ### Worker task processing — `part_005`, `WorkerPool.processTask` -/

/-- The `Task` struct of the worker pool. -/
structure Task where
  domain : List Char
  domainID : Int
  userID : Int
deriving DecidableEq

/-- A task's error: either the `NewHostname` validation error or the probe's
error, wrapped as Go's plain `error` interface value. -/
inductive TaskError where
  | hostnameErr (e : HostnameError)
  | sslErr (e : SslError)
deriving DecidableEq

/-- The `Result` struct of the worker pool. -/
structure Result where
  task : Task
  certificate : Option SLLCertificate
  error : Option TaskError
  checkedAtNanos : Int
deriving DecidableEq

/-- Embedding of `WorkerPool.processTask`: validate via `NewHostname`; on success probe
with `CheckSSLCertificate` under a 10-second timeout context derived from the
pool context (which the probe ignores, see `checkSSL_ignores_context`), and
copy the `(certificate, err)` pair into the `Result` verbatim. -/
def processTask (wpCtx : GoContext) (task : Task) (env : NetEnv) (now : Int) : Result :=
  match validateHostname task.domain with
  | some e => ⟨task, none, some (.hostnameErr e), now⟩
  | none =>
    let r := checkSSLCertificate wpCtx task.domain env
    ⟨task, r.2.1, r.2.2.map .sslErr, now⟩

/-! ### Persistence of check results — `part_003` `Repository.UpdateSSLInfo`
and the bulk-check result handler of `domain_service.go` -/

/-- One row of the `domains` table: the three columns written by
`UpdateSSLInfo`'s UPDATE statement plus the columns it must leave alone. -/
structure DomainRow where
  domainName : List Char
  isActive : Bool
  createdAtNanos : Int
  expiryDate : Option Int
  lastChecked : Option Int
  lastError : Option (List Char)
deriving DecidableEq

/-- Embedding of `Repository.UpdateSSLInfo`: the SQL
`UPDATE domains SET expiry_date = ?, last_checked = ?, last_error = ? WHERE id = ?`
sets all three columns unconditionally; a `nil` Go pointer becomes an invalid
`sql.NullTime`/`sql.NullString`, i.e. SQL NULL. -/
def updateSSLInfo (row : DomainRow) (expiryDate : Option Int)
    (lastError : Option (List Char)) (now : Int) : DomainRow :=
  { row with expiryDate := expiryDate, lastChecked := some now, lastError := lastError }

/-- The result handler installed by `Service.CheckAllDomainsSSLSync`
(`domain_service.go` lines 118–127): on error, `UpdateSSLInfo(id, nil, &errStr)`;
on success, `UpdateSSLInfo(id, &expiryTime, nil)`.  `errString` stands for Go's
`err.Error()`.  The `none` outcome models the nil-pointer dereference of
`result.Certificate` that would occur were both fields absent. -/
def handleResult (errString : TaskError → List Char) (row : DomainRow) (r : Result)
    (now : Int) : Option DomainRow :=
  match r.error with
  | some e => some (updateSSLInfo row none (some (errString e)) now)
  | none =>
    match r.certificate with
    | some c => some (updateSSLInfo row (some c.expiryDateNanos) none now)
    | none => none

/-! ### Certificate service — `ssl_service.go`, `CertService.Start` -/

/-- The `CertService` state relevant to `Start`'s idempotence: the `started`
flag, how many times `pool.Start()` has been invoked, and how many
`processResults` draining goroutines have been spawned.  `Start` holds
`cs.mu` for its whole body, so calls are serialised; the model is that
serialisation. -/
structure CertServiceState where
  started : Bool
  poolStartCalls : Nat
  drainLoops : Nat
deriving DecidableEq

/-- Embedding of `NewCertService()`: not started, nothing spawned. -/
def newCertService : CertServiceState := ⟨false, 0, 0⟩

/-- Embedding of `CertService.Start`: a no-op when `started`, otherwise starts the pool,
spawns one draining loop and sets the flag. -/
def startCS (s : CertServiceState) : CertServiceState :=
  if s.started then s
  else ⟨true, s.poolStartCalls + 1, s.drainLoops + 1⟩

/-! ### Worker pool — `part_005`, as a small-step transition system.
Goroutines become explicit program counters, the two buffered channels
(`make(chan Task, 100)`, `make(chan Result, 100)`) become list buffers with
capacity, `sync.WaitGroup` becomes a counter, and the pool context becomes a
cancelled flag.  `step` lists every successor of a state under any
interleaving; an empty list means no goroutine can move. -/

/-- A buffered Go channel of tokens (task or result identifiers; for the
scheduling claims only their number matters, so one worker-produced `Result`
is represented by its task token). -/
structure Chan where
  buf : List Nat
  cap : Nat
  closed : Bool
deriving DecidableEq

/-- Go's `close(ch)`: `none` models the runtime panic on an already-closed
channel. -/
def closeChan (c : Chan) : Option Chan :=
  if c.closed then none else some { c with closed := true }

/-- Possible outcomes of `AddTask`'s select statement. -/
inductive AddOutcome where
  | enqueued (c : Chan)
  | dropped
  | panicked
deriving DecidableEq

/-- Ready cases of `AddTask` (`select { case wp.tasks <- task: ; case
<-wp.ctx.Done(): } }`): a send on a closed channel is always ready and panics
when chosen; a send on an open channel is ready when the buffer has space;
the Done case is ready once the pool context is cancelled.  Go chooses
uniformly among ready cases, so the list collects every possible choice, and
an empty list means the call blocks. -/
def addTaskOutcomes (tasks : Chan) (cancelled : Bool) (t : Nat) : List AddOutcome :=
  (if tasks.closed then [.panicked]
   else if tasks.buf.length < tasks.cap then
     [.enqueued { tasks with buf := tasks.buf ++ [t] }]
   else []) ++
  (if cancelled then [.dropped] else [])

/-- Program counter of one worker goroutine (`WorkerPool.worker`): waiting on
`range wp.tasks`, blocked publishing a result, exited, or panicked. -/
inductive WPc where
  | recv
  | send (r : Nat)
  | exited
  | panicked
deriving DecidableEq

/-- Program counter of the driver goroutine: it submits its pending tasks via
`AddTask` and then runs `Stop()`'s four statements in source order
(`close(wp.tasks); wp.wg.Wait(); close(wp.results); wp.cancel()`). -/
inductive MPc where
  | submit (pending : List Nat)
  | closeTasks
  | waitWg
  | closeResults
  | cancelStep
  | ret
  | panicked
deriving DecidableEq

/-- Global state of the pool system. -/
structure SysState where
  tasks : Chan
  results : Chan
  cancelled : Bool
  wg : Nat
  workers : List WPc
  main : MPc
deriving DecidableEq

/-- Effect of one `AddTask` select outcome on the driver. -/
def applyAddOutcome (s : SysState) (rest : List Nat) : AddOutcome → SysState
  | .enqueued c => { s with tasks := c, main := .submit rest }
  | .dropped => { s with main := .submit rest }
  | .panicked => { s with main := .panicked }

/-- Successors contributed by the driver goroutine. -/
def mainSteps (s : SysState) : List SysState :=
  match s.main with
  | .submit [] => [{ s with main := .closeTasks }]
  | .submit (t :: rest) => (addTaskOutcomes s.tasks s.cancelled t).map (applyAddOutcome s rest)
  | .closeTasks =>
    match closeChan s.tasks with
    | none => [{ s with main := .panicked }]
    | some c => [{ s with tasks := c, main := .waitWg }]
  | .waitWg => if s.wg = 0 then [{ s with main := .closeResults }] else []
  | .closeResults =>
    match closeChan s.results with
    | none => [{ s with main := .panicked }]
    | some c => [{ s with results := c, main := .cancelStep }]
  | .cancelStep => [{ s with cancelled := true, main := .ret }]
  | .ret => []
  | .panicked => []

/-- Successors contributed by worker `i`.  `range wp.tasks` delivers buffered
tasks even after close and ends the loop once the channel is closed and
empty; the task's `processTask` call is folded into the receive step (its
result value does not affect scheduling).  The publish is
`select { case wp.results <- result: ; case <-wp.ctx.Done(): return }`. -/
def workerSteps (s : SysState) (i : Nat) : List SysState :=
  match s.workers.get? i with
  | none => []
  | some .exited => []
  | some .panicked => []
  | some .recv =>
    match s.tasks.buf with
    | t :: rest =>
      [{ s with tasks := { s.tasks with buf := rest }, workers := s.workers.set i (.send t) }]
    | [] =>
      if s.tasks.closed then
        [{ s with workers := s.workers.set i .exited, wg := s.wg - 1 }]
      else []
  | some (.send r) =>
    (if s.results.closed then [{ s with workers := s.workers.set i .panicked }]
     else if s.results.buf.length < s.results.cap then
       [{ s with results := { s.results with buf := s.results.buf ++ [r] },
                 workers := s.workers.set i .recv }]
     else []) ++
    (if s.cancelled then
       [{ s with workers := s.workers.set i .exited, wg := s.wg - 1 }]
     else [])

/-- All successors of a state under any interleaving. -/
def step (s : SysState) : List SysState :=
  mainSteps s ++ (List.range s.workers.length).flatMap (workerSteps s)

/-- One-step relation: `b` is some enabled successor of `a`. -/
def StepRel (a b : SysState) : Prop := b ∈ step a

/-- Reachability under any scheduler. -/
def Reachable : SysState → SysState → Prop := Relation.ReflTransGen StepRel

/-- Deterministic exploration: always take the first enabled successor; stay
put when stuck. -/
def runAuto : Nat → SysState → SysState
  | 0, s => s
  | n + 1, s =>
    match (step s).head? with
    | none => s
    | some s' => runAuto n s'

/-- State after `NewWorkerPool(workerCount)` + `Start()`, with a driver about
to `AddTask` each of `pending` and then call `Stop()`: both channels have
capacity 100 and are open, nothing is cancelled, and `workerCount` workers
wait on the task channel with the WaitGroup at `workerCount`. -/
def initPool (pending : List Nat) (workerCount : Nat) : SysState :=
  { tasks := ⟨[], 100, false⟩, results := ⟨[], 100, false⟩, cancelled := false,
    wg := workerCount, workers := List.replicate workerCount .recv,
    main := .submit pending }

/-- Driver stages at or after `wg.Wait()`, i.e. after `close(wp.tasks)` ran. -/
def stopStage : MPc → Bool
  | .waitWg | .closeResults | .cancelStep | .ret => true
  | _ => false

/-! ### Theorems -/

/-! ### Facts about labels accepted by the regex -/

theorem isAlnum_ne_dot {c : Char} (h : isAlnum c = true) : c ≠ '.' := by
  rintro rfl; exact absurd h (by decide)

theorem isAlnum_ne_dash {c : Char} (h : isAlnum c = true) : c ≠ '-' := by
  rintro rfl; exact absurd h (by decide)

theorem isLabelChar_of_isAlnum {c : Char} (h : isAlnum c = true) : isLabelChar c = true := by
  simp [isLabelChar, h]

theorem isLabelChar_ne_dot {c : Char} (h : isLabelChar c = true) : c ≠ '.' := by
  rintro rfl; exact absurd h (by decide)

theorem isAlnum_of_isLabelChar_ne_dash {c : Char} (h : isLabelChar c = true) (hd : c ≠ '-') :
    isAlnum c = true := by
  simp [isLabelChar] at h
  rcases h with h | h
  · exact h
  · exact absurd h hd

/-- Everything `ValidateHostname`'s later checks need about one regex label:
nonempty, at most 63 characters, all characters in `[a-zA-Z0-9\-]`,
alphanumeric first and last character. -/
theorem matchLabel_facts {p : List Char} (h : matchLabel p = true) :
    p ≠ [] ∧ p.length ≤ 63 ∧ (∀ c ∈ p, isLabelChar c = true) ∧
      (∃ a, p.head? = some a ∧ isAlnum a = true) ∧
      (∃ b, p.getLast? = some b ∧ isAlnum b = true) := by
  match p with
  | [] => simp [matchLabel] at h
  | [c] =>
    simp [matchLabel] at h
    refine ⟨by simp, by simp, ?_, ⟨c, rfl, h⟩, ⟨c, rfl, h⟩⟩
    intro x hx
    rw [List.mem_singleton] at hx
    subst hx
    exact isLabelChar_of_isAlnum h
  | c :: d :: rest =>
    have hne : (d :: rest) ≠ [] := by simp
    obtain ⟨b, hb⟩ : ∃ b, (d :: rest).getLast? = some b :=
      ⟨(d :: rest).getLast hne, List.getLast?_eq_getLast_of_ne_nil hne⟩
    rw [show matchLabel (c :: d :: rest) =
          (isAlnum c && decide ((d :: rest).length ≤ 62) &&
            (d :: rest).dropLast.all isLabelChar &&
            (match (d :: rest).getLast? with
             | some e => isAlnum e
             | none => false)) from rfl, hb] at h
    simp only [Bool.and_eq_true, decide_eq_true_eq, List.all_eq_true] at h
    obtain ⟨⟨⟨hc, hlen⟩, hmid⟩, hlast⟩ := h
    have hsplit : (d :: rest).dropLast ++ [b] = d :: rest :=
      List.dropLast_append_getLast? b hb
    refine ⟨by simp, by simpa using hlen, ?_, ⟨c, rfl, hc⟩, ⟨b, ?_, hlast⟩⟩
    · intro x hx
      rcases List.mem_cons.1 hx with rfl | hx
      · exact isLabelChar_of_isAlnum hc
      · rw [← hsplit, List.mem_append] at hx
        rcases hx with hx | hx
        · exact hmid x hx
        · rw [List.mem_singleton] at hx
          subst hx
          exact isLabelChar_of_isAlnum hlast
    · rw [List.getLast?_cons_cons]
      exact hb

/-- Converse direction: the per-label conditions stated by the spec force a
regex-label match. -/
theorem matchLabel_of_good {p : List Char} (hne : p ≠ []) (hlen : p.length ≤ 63)
    (hmem : ∀ c ∈ p, isLabelChar c = true)
    (hhead : p.head? ≠ some '-') (hlast : p.getLast? ≠ some '-') :
    matchLabel p = true := by
  match p with
  | [] => exact absurd rfl hne
  | [c] =>
    have hc : isLabelChar c = true := hmem c (by simp)
    have : c ≠ '-' := fun hcd => hhead (by simp [hcd])
    simp [matchLabel, isAlnum_of_isLabelChar_ne_dash hc this]
  | c :: d :: rest =>
    have hne2 : (d :: rest) ≠ [] := by simp
    obtain ⟨b, hb⟩ : ∃ b, (d :: rest).getLast? = some b :=
      ⟨(d :: rest).getLast hne2, List.getLast?_eq_getLast_of_ne_nil hne2⟩
    have hsplit : (d :: rest).dropLast ++ [b] = d :: rest :=
      List.dropLast_append_getLast? b hb
    have hc : isAlnum c = true := by
      refine isAlnum_of_isLabelChar_ne_dash (hmem c (by simp)) ?_
      intro hcd
      exact hhead (by simp [hcd])
    have hbmem : b ∈ c :: d :: rest := by
      refine List.mem_cons_of_mem c ?_
      rw [← hsplit]
      exact List.mem_append_right _ (by simp)
    have hblast : isAlnum b = true := by
      refine isAlnum_of_isLabelChar_ne_dash (hmem b hbmem) ?_
      intro hbd
      apply hlast
      rw [List.getLast?_cons_cons, hb, hbd]
    rw [show matchLabel (c :: d :: rest) =
          (isAlnum c && decide ((d :: rest).length ≤ 62) &&
            (d :: rest).dropLast.all isLabelChar &&
            (match (d :: rest).getLast? with
             | some e => isAlnum e
             | none => false)) from rfl, hb]
    simp only [Bool.and_eq_true, decide_eq_true_eq, List.all_eq_true]
    refine ⟨⟨⟨hc, ?_⟩, ?_⟩, hblast⟩
    · simpa using Nat.le_of_succ_le_succ (by simpa using hlen)
    · intro x hx
      refine hmem x (List.mem_cons_of_mem c ?_)
      rw [← hsplit]
      exact List.mem_append_left _ hx

theorem joinDots_cons_cons (p q : List Char) (ps : List (List Char)) :
    joinDots (p :: q :: ps) = p ++ '.' :: joinDots (q :: ps) := rfl

theorem splitOnDot_ne_nil (cs : List Char) : splitOnDot cs ≠ [] := by
  match cs with
  | [] => simp [splitOnDot]
  | c :: rest =>
    rw [splitOnDot]
    split
    · simp
    · split <;> simp

theorem joinDots_splitOnDot (cs : List Char) : joinDots (splitOnDot cs) = cs := by
  induction cs with
  | nil => rfl
  | cons c rest ih =>
    rw [splitOnDot]
    split
    · next hc =>
      subst hc
      have hne := splitOnDot_ne_nil rest
      match hs : splitOnDot rest with
      | [] => exact absurd hs hne
      | p :: ps =>
        rw [joinDots_cons_cons]
        rw [hs] at ih
        simp [ih]
    · next hc =>
      have hne := splitOnDot_ne_nil rest
      match hs : splitOnDot rest with
      | [] => exact absurd hs hne
      | [p] =>
        rw [hs] at ih
        simp only [joinDots] at ih ⊢
        simp [ih]
      | p :: q :: ps =>
        rw [hs] at ih
        rw [joinDots_cons_cons] at ih
        rw [joinDots_cons_cons, List.cons_append, ih]

theorem joinDots_cons_ne_nil {p : List Char} (ps : List (List Char)) (hp : p ≠ []) :
    joinDots (p :: ps) ≠ [] := by
  match ps with
  | [] => simpa [joinDots] using hp
  | q :: ps' =>
    rw [joinDots_cons_cons]
    simp

theorem containsDotDot_append {p rest : List Char} (hp : ∀ c ∈ p, c ≠ '.') :
    containsDotDot (p ++ rest) = containsDotDot rest := by
  induction p with
  | nil => rfl
  | cons x p' ih =>
    have hx : x ≠ '.' := hp x (by simp)
    have ih' := ih (fun c hc => hp c (List.mem_cons_of_mem x hc))
    match hpr : p' ++ rest with
    | [] =>
      have h2 : rest = [] := (List.append_eq_nil.1 hpr).2
      have h1 : p' = [] := (List.append_eq_nil.1 hpr).1
      subst h2
      subst h1
      rfl
    | c2 :: r =>
      rw [List.cons_append, hpr, containsDotDot]
      rw [hpr] at ih'
      simp [ih', beq_eq_false_iff_ne.2 hx]

theorem containsDotDot_of_no_dot {p : List Char} (hp : ∀ c ∈ p, c ≠ '.') :
    containsDotDot p = false := by
  have : containsDotDot (p ++ []) = containsDotDot [] := containsDotDot_append hp
  simpa using this

/-- No `".."` occurs in a join of nonempty dot-free label-matching parts. -/
theorem containsDotDot_joinDots :
    ∀ parts : List (List Char), parts ≠ [] → (∀ p ∈ parts, matchLabel p = true) →
      containsDotDot (joinDots parts) = false := by
  intro parts
  induction parts with
  | nil => intro h; exact absurd rfl h
  | cons p ps ih =>
    intro _ hall
    have hp := matchLabel_facts (hall p (by simp))
    have hpdot : ∀ c ∈ p, c ≠ '.' :=
      fun c hc => isLabelChar_ne_dot (hp.2.2.1 c hc)
    match ps with
    | [] =>
      simpa [joinDots] using containsDotDot_of_no_dot hpdot
    | q :: ps' =>
      have hq := matchLabel_facts (hall q (by simp))
      obtain ⟨a, ha, haA⟩ := hq.2.2.2.1
      have ihq : containsDotDot (joinDots (q :: ps')) = false :=
        ih (by simp) (fun r hr => hall r (List.mem_cons_of_mem p hr))
      rw [joinDots_cons_cons, containsDotDot_append hpdot]
      match q, ha with
      | a :: q', rfl =>
        match ps', ihq with
        | [], ihq =>
          simp only [joinDots] at ihq ⊢
          simp [containsDotDot, beq_eq_false_iff_ne.2 (isAlnum_ne_dot haA), ihq]
        | r :: ps'', ihq =>
          rw [joinDots_cons_cons] at ihq ⊢
          simp only [List.cons_append] at ihq ⊢
          simp [containsDotDot, beq_eq_false_iff_ne.2 (isAlnum_ne_dot haA)] at ihq ⊢
          exact ihq

theorem joinDots_getLast? :
    ∀ parts : List (List Char), (∀ p ∈ parts, p ≠ []) →
      ∀ lp, parts.getLast? = some lp →
        (joinDots parts).getLast? = lp.getLast? := by
  intro parts
  induction parts with
  | nil => intro _ lp h; simp at h
  | cons p ps ih =>
    intro hne lp hlp
    match ps with
    | [] =>
      simp at hlp
      subst hlp
      rfl
    | q :: ps' =>
      rw [List.getLast?_cons_cons] at hlp
      have hq : joinDots (q :: ps') ≠ [] :=
        joinDots_cons_ne_nil ps' (hne q (by simp))
      rw [joinDots_cons_cons, List.getLast?_append_of_ne_nil _ (by simp)]
      rw [show ('.' :: joinDots (q :: ps')) = ['.'] ++ joinDots (q :: ps') from rfl,
        List.getLast?_append_of_ne_nil _ hq]
      exact ih (fun r hr => hne r (List.mem_cons_of_mem p hr)) lp hlp

theorem getLast?_mem_of_eq_some {α : Type} {l : List α} {a : α} (h : l.getLast? = some a) :
    a ∈ l := by
  have hm : a ∈ l.getLast? := Option.mem_def.2 h
  obtain ⟨hne, rfl⟩ := List.mem_getLast?_eq_getLast hm
  exact List.getLast_mem hne

theorem joinDots_head? {p : List Char} (ps : List (List Char)) (hp : p ≠ []) :
    (joinDots (p :: ps)).head? = p.head? := by
  match p, ps with
  | p, [] => rfl
  | a :: p', q :: ps' => rw [joinDots_cons_cons]; rfl
  | [], q :: ps' => exact absurd rfl hp

/-- Once the regex has matched, every later check of `ValidateHostname`
passes: no `".."`, no leading/trailing `'.'` or `'-'`, and no bad label. -/
theorem regex_checks_unreachable {cs : List Char} (h : matchesHostnameRegex cs = true) :
    containsDotDot cs = false ∧
      cs.head? ≠ some '.' ∧ cs.getLast? ≠ some '.' ∧
      cs.head? ≠ some '-' ∧ cs.getLast? ≠ some '-' ∧
      (splitOnDot cs).any badLabel = false := by
  have hall : ∀ p ∈ splitOnDot cs, matchLabel p = true := List.all_eq_true.1 h
  have hnen : splitOnDot cs ≠ [] := splitOnDot_ne_nil cs
  have hjoin : joinDots (splitOnDot cs) = cs := joinDots_splitOnDot cs
  have hpartsne : ∀ p ∈ splitOnDot cs, p ≠ [] := fun p hp => (matchLabel_facts (hall p hp)).1
  obtain ⟨p, ps, hps⟩ : ∃ p ps, splitOnDot cs = p :: ps := by
    match hsp : splitOnDot cs with
    | [] => exact absurd hsp hnen
    | p :: ps => exact ⟨p, ps, rfl⟩
  obtain ⟨a, ha, haA⟩ := (matchLabel_facts (hall p (by rw [hps]; simp))).2.2.2.1
  obtain ⟨lp, hlp⟩ : ∃ lp, (splitOnDot cs).getLast? = some lp :=
    ⟨_, List.getLast?_eq_getLast_of_ne_nil hnen⟩
  have hlpmem : lp ∈ splitOnDot cs := getLast?_mem_of_eq_some hlp
  obtain ⟨b, hb, hbA⟩ := (matchLabel_facts (hall lp hlpmem)).2.2.2.2
  have hhead : cs.head? = some a := by
    rw [← hjoin, hps, joinDots_head? ps (hpartsne p (by rw [hps]; simp))]
    exact ha
  have hlast : cs.getLast? = some b := by
    rw [← hjoin, joinDots_getLast? _ hpartsne lp hlp]
    exact hb
  refine ⟨?_, ?_, ?_, ?_, ?_, ?_⟩
  · rw [← hjoin, hps]
    exact containsDotDot_joinDots (p :: ps) (by simp)
      (fun r hr => hall r (by rw [hps]; exact hr))
  · rw [hhead]
    intro hcon
    exact isAlnum_ne_dot haA (Option.some_inj.1 hcon)
  · rw [hlast]
    intro hcon
    exact isAlnum_ne_dot hbA (Option.some_inj.1 hcon)
  · rw [hhead]
    intro hcon
    exact isAlnum_ne_dash haA (Option.some_inj.1 hcon)
  · rw [hlast]
    intro hcon
    exact isAlnum_ne_dash hbA (Option.some_inj.1 hcon)
  · rw [List.any_eq_false]
    intro l hl
    obtain ⟨hlne, hllen, -, ⟨x, hx, hxA⟩, ⟨y, hy, hyA⟩⟩ := matchLabel_facts (hall l hl)
    have h0 : l.length ≠ 0 := by
      simpa using hlne
    have h63 : ¬ (63 < l.length) := by omega
    simp [badLabel, h0, h63, hx, hy,
      Option.some_inj, isAlnum_ne_dash hxA, isAlnum_ne_dash hyA]

theorem claimLabelGrammar_iff_regex (cs : List Char) :
    claimLabelGrammar cs = true ↔ matchesHostnameRegex cs = true := by
  constructor
  · intro h
    simp only [claimLabelGrammar, Bool.and_eq_true, List.all_eq_true, Bool.not_eq_true',
      beq_eq_false_iff_ne, decide_eq_true_eq] at h
    obtain ⟨⟨⟨⟨⟨hlabels, -⟩, -⟩, -⟩, -⟩, -⟩ := h
    rw [matchesHostnameRegex, List.all_eq_true]
    intro l hl
    obtain ⟨⟨⟨⟨h1, h63⟩, hchars⟩, hhd⟩, hlt⟩ := hlabels l hl
    exact matchLabel_of_good (List.length_pos.1 (by omega)) h63 hchars hhd hlt
  · intro h
    obtain ⟨hdd, hd1, hd2, hd3, hd4, hbad⟩ := regex_checks_unreachable h
    have hall : ∀ p ∈ splitOnDot cs, matchLabel p = true := List.all_eq_true.1 h
    simp only [claimLabelGrammar, Bool.and_eq_true, List.all_eq_true, Bool.not_eq_true',
      beq_eq_false_iff_ne, decide_eq_true_eq]
    refine ⟨⟨⟨⟨⟨?_, hd1⟩, hd2⟩, hd3⟩, hd4⟩, by simp [hdd]⟩
    intro l hl
    obtain ⟨hlne, hllen, hchars, ⟨x, hx, hxA⟩, ⟨y, hy, hyA⟩⟩ := matchLabel_facts (hall l hl)
    refine ⟨⟨⟨⟨List.length_pos.2 hlne, hllen⟩, hchars⟩, ?_⟩, ?_⟩
    · rw [hx]
      intro hcon
      exact isAlnum_ne_dash hxA (Option.some_inj.1 hcon)
    · rw [hy]
      intro hcon
      exact isAlnum_ne_dash hyA (Option.some_inj.1 hcon)

/-- C9: every check of `ValidateHostname` after the regex match is
unreachable — a regex-accepted string passes the `".."`, edge-character and
per-label checks — so the function never returns `InvalidHostnameErr` and
is extensionally equal to the simpler trim/length/regex-only validator. -/
theorem validateHostname_eq_simple (cs : List Char) :
    validateHostname cs = validateHostnameSimple cs ∧
      validateHostname cs ≠ some HostnameError.invalidHostname := by
  by_cases h1 : trimmedEmpty cs = true
  · rw [validateHostname, validateHostnameSimple, if_pos h1, if_pos h1]
    exact ⟨rfl, by decide⟩
  by_cases h2 : 253 < goLen cs
  · rw [validateHostname, validateHostnameSimple, if_neg h1, if_neg h1, if_pos h2, if_pos h2]
    exact ⟨rfl, by decide⟩
  by_cases h3 : matchesHostnameRegex cs = true
  · obtain ⟨e0, e1, e2, e3, e4, e5⟩ := regex_checks_unreachable h3
    have hnn : ¬¬matchesHostnameRegex cs = true := not_not.2 h3
    have hedge : ¬((cs.head? == some '.' || cs.getLast? == some '.' ||
        cs.head? == some '-' || cs.getLast? == some '-') = true) := by
      intro hc
      simp only [Bool.or_eq_true, beq_iff_eq] at hc
      rcases hc with ((hc | hc) | hc) | hc
      · exact e1 hc
      · exact e2 hc
      · exact e3 hc
      · exact e4 hc
    rw [validateHostname, validateHostnameSimple, if_neg h1, if_neg h1, if_neg h2, if_neg h2,
      if_neg hnn, if_neg hnn, if_neg (by simp [e0]), if_neg hedge, if_neg (by simp [e5])]
    exact ⟨rfl, by decide⟩
  · have hnm : ¬matchesHostnameRegex cs = true := h3
    rw [validateHostname, validateHostnameSimple, if_neg h1, if_neg h1, if_neg h2, if_neg h2,
      if_pos hnm, if_pos hnm]
    exact ⟨rfl, by decide⟩

theorem goLen_ge_length (cs : List Char) : cs.length ≤ goLen cs := by
  induction cs with
  | nil => simp [goLen]
  | cons c cs ih =>
    have h1 : 0 < c.utf8Size := Char.utf8Size_pos c
    simp only [goLen, List.map_cons, List.sum_cons, List.length_cons] at ih ⊢
    omega

/-- C7: the validator applies its rules in source order with the first
failure winning — whitespace-only input gives the Empty error; otherwise any
input longer than 253 characters gives the TooLong error; otherwise (when the
byte length fits) the input is accepted exactly when it satisfies the label
grammar stated by the spec.  The function is pure: no network is modelled. -/
theorem validateHostname_rules (cs : List Char) :
    (trimmedEmpty cs = true → validateHostname cs = some HostnameError.emptyHostname) ∧
    (trimmedEmpty cs = false → 253 < cs.length →
      validateHostname cs = some HostnameError.tooLong) ∧
    (trimmedEmpty cs = false → goLen cs ≤ 253 →
      (validateHostname cs = none ↔ claimLabelGrammar cs = true)) := by
  refine ⟨?_, ?_, ?_⟩
  · intro h
    simp [validateHostname, h]
  · intro h hlen
    have : 253 < goLen cs := lt_of_lt_of_le hlen (goLen_ge_length cs)
    simp [validateHostname, h, this]
  · intro h hlen
    rw [claimLabelGrammar_iff_regex]
    have hfit : ¬ (253 < goLen cs) := by omega
    rcases hreg : matchesHostnameRegex cs with - | -
    · constructor
      · intro hv
        exfalso
        rw [(validateHostname_eq_simple cs).1] at hv
        simp [validateHostnameSimple, h, hfit, hreg] at hv
      · intro hc
        exact absurd hc (by simp [hreg])
    · constructor
      · intro _
        rfl
      · intro _
        rw [(validateHostname_eq_simple cs).1]
        simp [validateHostnameSimple, h, hfit, hreg]

/-- Witness for C7 at concrete inputs: a whitespace-only string is Empty, a
254-character string is TooLong, `"example.com"` is accepted, and `"a_b"`
(which breaks the label grammar) is rejected. -/
theorem validateHostname_rules_witness :
    validateHostname (' ' :: [' ']) = some HostnameError.emptyHostname ∧
      validateHostname (List.replicate 254 'a') = some HostnameError.tooLong ∧
      validateHostname "example.com".toList = none ∧
      validateHostname "a_b".toList ≠ none := by
  refine ⟨(validateHostname_rules _).1 (by decide), ?_, ?_, ?_⟩
  · exact (validateHostname_rules _).2.1 (by decide) (by simp [List.length_replicate])
  · exact ((validateHostname_rules _).2.2 (by decide) (by decide)).2 (by decide)
  · intro hc
    have := ((validateHostname_rules "a_b".toList).2.2 (by decide) (by decide)).1 hc
    exact absurd this (by decide)

/-- C3 (what the code does instead): `CheckSSLCertificate` is entirely
insensitive to the caller's context — its result is identical for cancelled
and live contexts — and with an already-cancelled context and a valid
hostname it still performs the TCP dial and the TLS handshake and returns the
certificate; no cancellation error exists anywhere in its error set. -/
theorem checkSSL_ignores_context :
    (∀ (ctx ctx' : GoContext) (hostname : List Char) (env : NetEnv),
        checkSSLCertificate ctx hostname env = checkSSLCertificate ctx' hostname env) ∧
      (checkSSLCertificate ⟨true⟩ "example.com".toList
          ⟨.dialOk, .handshakeOk [⟨nsPerDay⟩], 0⟩).1 =
        [.dialAttempt, .handshakeAttempt] ∧
      (checkSSLCertificate ⟨true⟩ "example.com".toList
          ⟨.dialOk, .handshakeOk [⟨nsPerDay⟩], 0⟩).2.2 = none := by
  refine ⟨fun ctx ctx' hostname env => rfl, ?_, ?_⟩ <;> decide

/-- C4 counterexample: a certificate one hour past expiry at check time is a
successful probe whose computed days-remaining is `0` — not negative, and not
`floor(hours/24)` (which would be `-1`). -/
theorem timeLeft_not_floor_counterexample :
    (checkSSLCertificate ⟨false⟩ "example.com".toList
        ⟨.dialOk, .handshakeOk [⟨-3600000000000⟩], 0⟩).2.1 =
      some ⟨"example.com".toList, -3600000000000, 0⟩ ∧
      (-3600000000000 : Int) - 0 < 0 ∧
      ¬ (0 : Int) < 0 ∧
      Int.fdiv (-3600000000000 - 0) nsPerDay = -1 ∧
      timeLeftDays (-3600000000000 - 0) ≠ Int.fdiv (-3600000000000 - 0) nsPerDay := by
  refine ⟨by decide, by decide, by decide, by decide, by decide⟩

/-- C4 (amended): on every successful probe the days-remaining equals the
**truncation toward zero** of `hours_until(notAfter)/24`; this agrees with
`floor` for certificates that have not yet expired, yields 10 for a
certificate expiring 10–11 days after the check, is never positive for an
expired certificate, and is negative exactly when expiry lies at least one
full day in the past. -/
theorem checkSSL_timeLeft :
    (∀ (ctx : GoContext) (hostname : List Char) (env : NetEnv) (cert : SLLCertificate),
        (checkSSLCertificate ctx hostname env).2.1 = some cert →
          cert.timeLeft = timeLeftDays (cert.expiryDateNanos - env.nowNanos)) ∧
      (∀ d : Int, 0 ≤ d → timeLeftDays d = Int.fdiv d nsPerDay) ∧
      (∀ d : Int, 10 * nsPerDay ≤ d → d < 11 * nsPerDay → timeLeftDays d = 10) ∧
      (∀ d : Int, d < 0 → timeLeftDays d ≤ 0) ∧
      (∀ d : Int, timeLeftDays d < 0 ↔ d ≤ -nsPerDay) := by
  refine ⟨?_, ?_, ?_, ?_, ?_⟩
  · intro ctx hostname env cert hc
    unfold checkSSLCertificate at hc
    split at hc
    · simp at hc
    · rcases hd : env.dial with - | -  <;> rw [hd] at hc
      · simp at hc
      · rcases hh : env.handshake with - | certs <;> rw [hh] at hc
        · simp at hc
        · match certs with
          | [] => simp at hc
          | c :: rest =>
            simp only [Option.some_inj] at hc
            subst hc
            rfl
  · intro d hd
    match d, hd with
    | Int.ofNat m, _ =>
      show Int.tdiv (Int.ofNat m) (Int.ofNat 86400000000000) =
        Int.fdiv (Int.ofNat m) (Int.ofNat 86400000000000)
      cases m with
      | zero => rfl
      | succ k => rfl
  · intro d h10 h11
    simp only [nsPerDay] at h10 h11
    match d with
    | Int.ofNat m =>
      rw [Int.ofNat_eq_coe] at h10 h11
      have hm : m / 86400000000000 = 10 := by omega
      rw [show timeLeftDays (Int.ofNat m) = Int.ofNat (m / 86400000000000) from rfl, hm]
      rfl
    | Int.negSucc m =>
      exfalso
      rw [Int.negSucc_eq] at h10
      omega
  · intro d hd
    match d with
    | Int.ofNat m =>
      rw [Int.ofNat_eq_coe] at hd
      exact absurd hd (by omega)
    | Int.negSucc m =>
      rw [show timeLeftDays (Int.negSucc m) =
        -Int.ofNat (m.succ / 86400000000000) from rfl, Int.ofNat_eq_coe]
      omega
  · intro d
    simp only [nsPerDay]
    match d with
    | Int.ofNat m =>
      rw [show timeLeftDays (Int.ofNat m) = Int.ofNat (m / 86400000000000) from rfl,
        Int.ofNat_eq_coe, Int.ofNat_eq_coe]
      omega
    | Int.negSucc m =>
      rw [show timeLeftDays (Int.negSucc m) =
        -Int.ofNat (m.succ / 86400000000000) from rfl, Int.ofNat_eq_coe, Int.negSucc_eq]
      omega

/-- Witness for the amended C4: a certificate expiring in exactly 10 days
yields 10; one expired a full day ago yields a negative value; on a concrete
successful probe the first conjunct ties the stored `timeLeft` to
`timeLeftDays`. -/
theorem checkSSL_timeLeft_witness :
    timeLeftDays 864000000000000 = 10 ∧
      timeLeftDays (-86400000000000) < 0 ∧
      (⟨"example.com".toList, 864000000000000, 10⟩ : SLLCertificate).timeLeft =
        timeLeftDays ((864000000000000 : Int) - 0) := by
  refine ⟨checkSSL_timeLeft.2.2.1 864000000000000 (by decide) (by decide), ?_, ?_⟩
  · exact (checkSSL_timeLeft.2.2.2.2 (-86400000000000)).2 (by decide)
  · exact checkSSL_timeLeft.1 ⟨false⟩ "example.com".toList
      ⟨.dialOk, .handshakeOk [⟨864000000000000⟩], 0⟩ _ (by decide)

/-- C8: every produced `Result` carries its originating task unchanged, and
exactly one of certificate/error is present: the certificate is non-null iff
the error is null. -/
theorem processTask_result_exclusive (wpCtx : GoContext) (task : Task) (env : NetEnv)
    (now : Int) :
    (processTask wpCtx task env now).task = task ∧
      ((processTask wpCtx task env now).certificate.isSome ↔
        (processTask wpCtx task env now).error = none) := by
  cases hv : validateHostname task.domain with
  | some e => simp [processTask, hv]
  | none =>
    cases hd : env.dial with
    | dialFail => simp [processTask, checkSSLCertificate, hv, hd]
    | dialOk =>
      cases hh : env.handshake with
      | handshakeFail => simp [processTask, checkSSLCertificate, hv, hd, hh]
      | handshakeOk certs =>
        cases certs with
        | nil => simp [processTask, checkSSLCertificate, hv, hd, hh]
        | cons c rest => simp [processTask, checkSSLCertificate, hv, hd, hh]

/-- C2 counterexample: a domain row whose stored expiry is `some 111`
loses it (the column becomes NULL) when a failed check is recorded — the
previously stored expiry date is **not** kept unchanged. -/
theorem failed_check_clears_expiry_counterexample :
    (handleResult (fun _ => ['x']) ⟨'a' :: ['b'], true, 0, some 111, some 5, none⟩
          ⟨⟨'a' :: ['b'], 1, 1⟩, none, some (.sslErr .connectionFailed), 50⟩ 99).map
        DomainRow.expiryDate = some none ∧
      (⟨'a' :: ['b'], true, 0, some 111, some 5, none⟩ : DomainRow).expiryDate = some 111 := by
  exact ⟨rfl, rfl⟩

/-- C2 (amended): recording a failed check updates last-error and
last-checked and **clears** the stored expiry date (sets the column to NULL),
leaving the remaining columns unchanged; only a successful probe stores an
expiry date, and it also clears last-error. -/
theorem handleResult_frame (errString : TaskError → List Char) (row : DomainRow)
    (r : Result) (now : Int) :
    (∀ e, r.error = some e →
        handleResult errString row r now =
          some { row with expiryDate := none, lastChecked := some now,
                          lastError := some (errString e) }) ∧
      (∀ c, r.error = none → r.certificate = some c →
        handleResult errString row r now =
          some { row with expiryDate := some c.expiryDateNanos, lastChecked := some now,
                          lastError := none }) := by
  constructor
  · intro e he
    simp [handleResult, he, updateSSLInfo]
  · intro c he hc
    simp [handleResult, he, hc, updateSSLInfo]

/-- Witness for the amended C2 at concrete inputs: both the error path and
the success path of the handler, evaluated on explicit rows and results. -/
theorem handleResult_frame_witness :
    handleResult (fun _ => ['x']) ⟨['a'], true, 7, some 111, some 5, none⟩
        ⟨⟨['a'], 1, 1⟩, none, some (.sslErr .handshakeFailed), 50⟩ 99 =
      some ⟨['a'], true, 7, none, some 99, some ['x']⟩ ∧
      handleResult (fun _ => ['x']) ⟨['a'], true, 7, none, some 5, some ['x']⟩
          ⟨⟨['a'], 1, 1⟩, some ⟨['a'], 222, 3⟩, none, 50⟩ 99 =
        some ⟨['a'], true, 7, some 222, some 99, none⟩ := by
  constructor
  · exact (handleResult_frame (fun _ => ['x']) ⟨['a'], true, 7, some 111, some 5, none⟩
      ⟨⟨['a'], 1, 1⟩, none, some (.sslErr .handshakeFailed), 50⟩ 99).1
      (.sslErr .handshakeFailed) rfl
  · exact (handleResult_frame (fun _ => ['x']) ⟨['a'], true, 7, none, some 5, some ['x']⟩
      ⟨⟨['a'], 1, 1⟩, some ⟨['a'], 222, 3⟩, none, 50⟩ 99).2 ⟨['a'], 222, 3⟩ rfl rfl

/-- C6: `Start` is idempotent — any positive number of (serialised) calls on
a fresh service leaves exactly one pool start and exactly one draining loop,
and a second application of `Start` never changes the state further. -/
theorem certService_start_idempotent :
    (∀ n, 1 ≤ n → startCS^[n] newCertService = ⟨true, 1, 1⟩) ∧
      ∀ s : CertServiceState, startCS (startCS s) = startCS s := by
  constructor
  · intro n hn
    induction n with
    | zero => omega
    | succ k ih =>
      cases Nat.eq_or_lt_of_le hn with
      | inl h1 =>
        have : k = 0 := by omega
        subst this
        rfl
      | inr h1 =>
        have hk : 1 ≤ k := by omega
        rw [Function.iterate_succ_apply', ih hk]
        rfl
  · intro s
    by_cases hs : s.started
    · simp [startCS, hs]
    · simp [startCS, hs]

/-- Witness for C6: three consecutive `Start` calls on a fresh service leave
exactly one pool start and one draining loop. -/
theorem certService_start_idempotent_witness :
    startCS^[3] newCertService = ⟨true, 1, 1⟩ :=
  certService_start_idempotent.1 3 (by omega)

theorem mem_of_head?_eq {α : Type} {l : List α} {a : α} (h : l.head? = some a) : a ∈ l := by
  match l, h with
  | x :: xs, h =>
    rw [List.head?_cons, Option.some_inj] at h
    exact h ▸ List.mem_cons_self x xs

theorem reachable_runAuto (n : Nat) (s : SysState) : Reachable s (runAuto n s) := by
  induction n generalizing s with
  | zero => exact Relation.ReflTransGen.refl
  | succ k ih =>
    cases hh : (step s).head? with
    | none =>
      rw [runAuto, hh]
      exact Relation.ReflTransGen.refl
    | some s' =>
      rw [runAuto, hh]
      exact Relation.ReflTransGen.head (mem_of_head?_eq hh) (ih s')

/-- Worker moves never change the driver's program counter nor whether the
task channel is closed. -/
theorem workerSteps_frame {s b : SysState} {i : Nat} (hb : b ∈ workerSteps s i) :
    b.main = s.main ∧ b.tasks.closed = s.tasks.closed := by
  match hg : s.workers.get? i with
  | none =>
    simp only [workerSteps, hg] at hb
    simp at hb
  | some WPc.exited =>
    simp only [workerSteps, hg] at hb
    simp at hb
  | some WPc.panicked =>
    simp only [workerSteps, hg] at hb
    simp at hb
  | some WPc.recv =>
    match hbuf : s.tasks.buf with
    | t :: rest =>
      simp only [workerSteps, hg, hbuf] at hb
      rw [List.mem_singleton] at hb
      subst hb
      exact ⟨rfl, rfl⟩
    | [] =>
      simp only [workerSteps, hg, hbuf] at hb
      split at hb
      · rw [List.mem_singleton] at hb
        subst hb
        exact ⟨rfl, rfl⟩
      · simp at hb
  | some (WPc.send r) =>
    simp only [workerSteps, hg] at hb
    rcases List.mem_append.1 hb with hb | hb
    · split at hb
      · rw [List.mem_singleton] at hb
        subst hb
        exact ⟨rfl, rfl⟩
      · split at hb
        · rw [List.mem_singleton] at hb
          subst hb
          exact ⟨rfl, rfl⟩
        · simp at hb
    · split at hb
      · rw [List.mem_singleton] at hb
        subst hb
        exact ⟨rfl, rfl⟩
      · simp at hb

/-- Driver moves preserve the invariant that from `wg.Wait()` onward the task
channel is closed. -/
theorem mainSteps_stop_invariant {s b : SysState} (hb : b ∈ mainSteps s)
    (hq : stopStage s.main = true → s.tasks.closed = true) :
    stopStage b.main = true → b.tasks.closed = true := by
  match hm : s.main with
  | MPc.submit [] =>
    simp only [mainSteps, hm] at hb
    rw [List.mem_singleton] at hb
    subst hb
    intro h
    simp [stopStage] at h
  | MPc.submit (t :: rest) =>
    simp only [mainSteps, hm] at hb
    rw [List.mem_map] at hb
    obtain ⟨o, -, rfl⟩ := hb
    cases o <;> (intro h; simp [applyAddOutcome, stopStage] at h)
  | MPc.closeTasks =>
    match hc : closeChan s.tasks with
    | none =>
      simp only [mainSteps, hm, hc] at hb
      rw [List.mem_singleton] at hb
      subst hb
      intro h
      simp [stopStage] at h
    | some c =>
      simp only [mainSteps, hm, hc] at hb
      rw [List.mem_singleton] at hb
      subst hb
      intro _
      unfold closeChan at hc
      split at hc
      · exact absurd hc (by simp)
      · rw [Option.some_inj] at hc
        rw [← hc]
  | MPc.waitWg =>
    simp only [mainSteps, hm] at hb
    split at hb
    · rw [List.mem_singleton] at hb
      subst hb
      intro _
      exact hq (by rw [hm]; rfl)
    · simp at hb
  | MPc.closeResults =>
    match hc : closeChan s.results with
    | none =>
      simp only [mainSteps, hm, hc] at hb
      rw [List.mem_singleton] at hb
      subst hb
      intro h
      simp [stopStage] at h
    | some c =>
      simp only [mainSteps, hm, hc] at hb
      rw [List.mem_singleton] at hb
      subst hb
      intro _
      exact hq (by rw [hm]; rfl)
  | MPc.cancelStep =>
    simp only [mainSteps, hm] at hb
    rw [List.mem_singleton] at hb
    subst hb
    intro _
    exact hq (by rw [hm]; rfl)
  | MPc.ret =>
    simp only [mainSteps, hm] at hb
    simp at hb
  | MPc.panicked =>
    simp only [mainSteps, hm] at hb
    simp at hb

/-- Along every execution, once the driver is at or past `wg.Wait()` the task
channel stays closed. -/
theorem reachable_stop_invariant {s0 s : SysState} (h : Reachable s0 s)
    (h0 : stopStage s0.main = true → s0.tasks.closed = true) :
    stopStage s.main = true → s.tasks.closed = true := by
  induction h with
  | refl => exact h0
  | tail hab hbc ih =>
    rcases List.mem_append.1 hbc with hmm | hw
    · exact mainSteps_stop_invariant hmm ih
    · obtain ⟨i, -, hw⟩ := List.mem_flatMap.1 hw
      have hf := workerSteps_frame hw
      intro hst
      rw [hf.2]
      exact ih (by rw [← hf.1]; exact hst)

/-- C1 (the code violates it): starting from a 1-worker pool whose driver
submits 101 tasks, never consumes `GetResults()`, and then calls `Stop()`, a
state is reachable in which the driver is blocked inside `wg.Wait()`, the one
worker is blocked publishing its 101st result into the full result buffer,
cancellation has not fired (Stop cancels only after `wg.Wait()` returns), and
no goroutine has any enabled transition: `Stop()` never returns. -/
theorem stop_can_deadlock :
    ∃ s : SysState, Reachable (initPool (List.replicate 101 0) 1) s ∧
      step s = [] ∧ s.main = MPc.waitWg ∧ s.cancelled = false ∧
      s.workers = [WPc.send 0] ∧ s.results.buf.length = s.results.cap := by
  refine ⟨runAuto 310 (initPool (List.replicate 101 0) 1),
    reachable_runAuto 310 _, ?_, ?_, ?_, ?_, ?_⟩ <;> decide

/-- C10: on every pool on which `Stop()` has returned (any submitted task
list, any worker count, any interleaving), the task channel is closed, so the
first statement of a second `Stop()` — `close(wp.tasks)` — panics, and the
restarted driver's only possible transition is to the panicked state. -/
theorem stop_not_idempotent (pending : List Nat) (workerCount : Nat) (s : SysState)
    (hreach : Reachable (initPool pending workerCount) s) (hret : s.main = MPc.ret) :
    closeChan s.tasks = none ∧
      mainSteps { s with main := MPc.closeTasks } =
        [{ s with main := MPc.panicked }] := by
  have hclosed : s.tasks.closed = true := by
    refine reachable_stop_invariant hreach ?_ ?_
    · intro h
      simp [initPool, stopStage] at h
    · rw [hret]
      rfl
  constructor
  · unfold closeChan
    rw [if_pos hclosed]
  · have hcc : closeChan s.tasks = none := by
      unfold closeChan
      rw [if_pos hclosed]
    simp [mainSteps, hcc]

/-- Witness for C10: run an idle 0-worker pool's driver to completion
(`Stop()` returns after 5 steps); a second `close(wp.tasks)` panics. -/
theorem stop_not_idempotent_witness :
    closeChan (runAuto 10 (initPool [] 0)).tasks = none :=
  (stop_not_idempotent [] 0 (runAuto 10 (initPool [] 0))
    (reachable_runAuto 10 _) (by decide)).1

/-- C5 counterexample: in the state in which `Stop()` has completed on an
idle pool, `AddTask` is not a safe no-op — the task channel is closed, so the
select's send case is ready and panics when Go picks it. -/
theorem addTask_after_stop_can_panic :
    AddOutcome.panicked ∈
      addTaskOutcomes (runAuto 10 (initPool [] 0)).tasks
        (runAuto 10 (initPool [] 0)).cancelled 7 := by
  decide

/-- C5 (amended): `AddTask` never blocks once the cancellation signal has
fired; while the pool runs (channel open) it never panics, and it enqueues
when the queue has space — but with a full queue and no cancellation it
blocks; once cancelled it may still enqueue rather than drop; and after
`Stop()` has closed the task channel the send case panics when selected — in
the window after `close(wp.tasks)` and before `wp.cancel()` the panic is the
only possible outcome. -/
theorem addTask_outcomes_spec (tasks : Chan) (cancelled : Bool) (t : Nat) :
    (cancelled = true → addTaskOutcomes tasks cancelled t ≠ []) ∧
      (tasks.closed = false → AddOutcome.panicked ∉ addTaskOutcomes tasks cancelled t) ∧
      (tasks.closed = false → tasks.buf.length < tasks.cap →
        AddOutcome.enqueued { tasks with buf := tasks.buf ++ [t] } ∈
          addTaskOutcomes tasks cancelled t) ∧
      (tasks.closed = false → ¬ tasks.buf.length < tasks.cap → cancelled = false →
        addTaskOutcomes tasks cancelled t = []) ∧
      (tasks.closed = true → AddOutcome.panicked ∈ addTaskOutcomes tasks cancelled t) ∧
      (tasks.closed = true → cancelled = false →
        addTaskOutcomes tasks cancelled t = [AddOutcome.panicked]) := by
  refine ⟨?_, ?_, ?_, ?_, ?_, ?_⟩
  · intro hc
    simp [addTaskOutcomes, hc]
  · intro ho hmem
    simp only [addTaskOutcomes, ho] at hmem
    rcases List.mem_append.1 hmem with hm | hm
    · rw [if_neg (by simp)] at hm
      split at hm
      · simp at hm
      · simp at hm
    · split at hm
      · simp at hm
      · simp at hm
  · intro ho hsp
    simp [addTaskOutcomes, ho, hsp]
  · intro ho hfull hc
    simp [addTaskOutcomes, ho, hfull, hc]
  · intro hcl
    simp [addTaskOutcomes, hcl]
  · intro hcl hc
    simp [addTaskOutcomes, hcl, hc]

/-- Witness for the amended C5 at concrete channels: cancelled never blocks;
open channel never panics and enqueues with space; full open uncancelled
channel blocks; closed channel before cancellation panics deterministically. -/
theorem addTask_outcomes_spec_witness :
    addTaskOutcomes ⟨[], 100, false⟩ true 7 ≠ [] ∧
      AddOutcome.panicked ∉ addTaskOutcomes ⟨[], 100, false⟩ false 7 ∧
      AddOutcome.enqueued ⟨[7], 100, false⟩ ∈ addTaskOutcomes ⟨[], 100, false⟩ false 7 ∧
      addTaskOutcomes ⟨List.replicate 100 0, 100, false⟩ false 7 = [] ∧
      addTaskOutcomes ⟨[], 100, true⟩ false 7 = [AddOutcome.panicked] := by
  refine ⟨(addTask_outcomes_spec ⟨[], 100, false⟩ true 7).1 rfl,
    (addTask_outcomes_spec ⟨[], 100, false⟩ false 7).2.1 rfl,
    ?_,
    (addTask_outcomes_spec ⟨List.replicate 100 0, 100, false⟩ false 7).2.2.2.1 rfl
      (by decide) rfl,
    (addTask_outcomes_spec ⟨[], 100, true⟩ false 7).2.2.2.2.2 rfl rfl⟩
  exact (addTask_outcomes_spec ⟨[], 100, false⟩ false 7).2.2.1 rfl (by decide)

end SslTracker
